import Mathlib

/-!
Verification of the TailorFrame transcript-editing engine.

The frontend component `TranscriptPanel.tsx` implements the text-edit
resolution algorithm (`getCurrentText`, `applyChangesToText`,
`handleSaveEdit`, `handleApplyChanges`); those functions are embedded
here directly from the source.  A JS string is modelled as a `List Char`
(a sequence of code units), and `String.prototype.substring` is modelled
with its ECMAScript clamp-and-swap semantics.  Edit indices and the
running offset are modelled as `Int`, since the running offset in the
source goes negative whenever a replacement shrinks the text.

The backend engine (Edit Resolver, Speech Synthesizer Gateway, Timeline
Reconciler, Splicer/Remuxer) is not present in the repository snapshot;
the definitions for those components are modelled from the specification
and are marked as such in their doc comments.
-/

/-- One row of the transcript list shown in the panel, as in the
`TranscriptItem` interface of `TranscriptPanel.tsx`.  The text is a JS
string, modelled as a list of code units. -/
structure TranscriptItem where
  id : String
  speaker : String
  timestamp : String
  text : List Char
  isHighlighted : Bool
  startTime : Option ℚ
  endTime : Option ℚ

/-- A recorded edit, as in the `TextChange` interface of
`TranscriptPanel.tsx`: a character-range substitution within one
segment's text, with `startIndex`/`endIndex` captured against the text
at submission time. -/
structure TextChange where
  id : String
  transcriptId : String
  timestamp : String
  oldText : List Char
  newText : List Char
  startIndex : Int
  endIndex : Int
  changeTime : String
deriving DecidableEq

/-- A piece of rendered text, as in the `TextSegment` interface of
`TranscriptPanel.tsx`: either an unchanged run of the original text or
the replacement text of one change. -/
structure TextSegment where
  text : List Char
  isChanged : Bool
  changeId : Option String
deriving DecidableEq

/-- ECMAScript `String.prototype.substring s a b`: both arguments are
clamped into `[0, length]` and swapped if out of order, then the slice
between them is returned. -/
def jsSubstring (s : List Char) (a b : Int) : List Char :=
  let n : Int := s.length
  let a' := if a < 0 then 0 else if n < a then n else a
  let b' := if b < 0 then 0 else if n < b then n else b
  if a' ≤ b' then (s.take b'.toNat).drop a'.toNat
  else (s.take a'.toNat).drop b'.toNat

/-- The comparator `(a, b) => a.startIndex - b.startIndex` used in
`TranscriptPanel.tsx`, as the ordering it induces. -/
def leStart (a b : TextChange) : Prop := a.startIndex ≤ b.startIndex

instance : DecidableRel leStart := fun a b => Int.decLe a.startIndex b.startIndex

instance : IsTotal TextChange leStart := ⟨fun a b => Int.le_total a.startIndex b.startIndex⟩

instance : IsTrans TextChange leStart := ⟨fun _ _ _ h₁ h₂ => le_trans h₁ h₂⟩

/-- `[...transcriptChanges].sort((a, b) => a.startIndex - b.startIndex)`:
a stable ascending sort by `startIndex`. -/
def sortChanges (cs : List TextChange) : List TextChange :=
  List.insertionSort leStart cs

/-- The replacement step shared by `getCurrentText` and
`applyChangesToText`:
`workingText.substring(0, adjustedStartIndex) + change.newText +
workingText.substring(adjustedEndIndex)`. -/
def replaceRange (w : List Char) (adjS adjE : Int) (n : List Char) : List Char :=
  jsSubstring w 0 adjS ++ n ++ jsSubstring w adjE (w.length : Int)

/-- The `sortedChanges.forEach` loop of `getCurrentText`: apply each
change left to right at its offset-adjusted range, accumulating the
running length offset. -/
def applyChangesFold : List Char → Int → List TextChange → List Char
  | w, _, [] => w
  | w, off, c :: r =>
      applyChangesFold
        (replaceRange w (c.startIndex + off) (c.endIndex + off) c.newText)
        (off + (c.newText.length : Int) - (c.endIndex - c.startIndex)) r

/-- `getCurrentText` of `TranscriptPanel.tsx`: filter the recorded
changes down to the given transcript row, return the original text if
none remain, and otherwise apply them sorted by `startIndex` with a
running length offset. -/
def getCurrentText (changes : List TextChange) (transcript : TranscriptItem) : List Char :=
  let transcriptChanges := changes.filter (fun c => c.transcriptId == transcript.id)
  if transcriptChanges.length = 0 then transcript.text
  else applyChangesFold transcript.text 0 (sortChanges transcriptChanges)

/-- The `sortedChanges.forEach` loop of `applyChangesToText`: walk the
changes left to right, emitting the unchanged run before each change
(when nonempty) and the replacement text, while rewriting the working
text exactly as `getCurrentText` does and tracking `currentIndex` past
the inserted text. -/
def applyChangesLoop :
    List TextSegment → Int → List Char → Int → List TextChange →
      List TextSegment × Int × List Char
  | segs, currentIndex, w, _, [] => (segs, currentIndex, w)
  | segs, currentIndex, w, off, c :: r =>
      let adjS := c.startIndex + off
      let adjE := c.endIndex + off
      let unchanged := jsSubstring w currentIndex adjS
      let segs1 :=
        if currentIndex < adjS then
          (if unchanged ≠ [] then segs ++ [⟨unchanged, false, none⟩] else segs)
        else segs
      let segs2 := segs1 ++ [⟨c.newText, true, some c.id⟩]
      applyChangesLoop segs2 (adjS + (c.newText.length : Int))
        (replaceRange w adjS adjE c.newText)
        (off + (c.newText.length : Int) - (c.endIndex - c.startIndex)) r

/-- The code after the loop in `applyChangesToText`: if `currentIndex`
is still inside the working text, emit the remaining run (when
nonempty). -/
def finishSegments : List TextSegment × Int × List Char → List TextSegment
  | (segs, currentIndex, w) =>
      if currentIndex < (w.length : Int) then
        let remaining := jsSubstring w currentIndex (w.length : Int)
        if remaining ≠ [] then segs ++ [⟨remaining, false, none⟩] else segs
      else segs

/-- `applyChangesToText` of `TranscriptPanel.tsx`: decompose the edited
text of one transcript row into highlight segments. -/
def applyChangesToText (originalText : List Char) (transcriptChanges : List TextChange) :
    List TextSegment :=
  if transcriptChanges.length = 0 then [⟨originalText, false, none⟩]
  else
    finishSegments (applyChangesLoop [] 0 originalText 0 (sortChanges transcriptChanges))

/-- Concatenation of the `text` fields of a segment list, in order. -/
def concatTexts : List TextSegment → List Char
  | [] => []
  | s :: r => s.text ++ concatTexts r

/-- Validity of a change list as an index chain: starting from lower
bound `lo`, each change's range `[startIndex, endIndex)` is well formed,
starts no earlier than the previous range ended, and ends within `hi`.
On the sorted change list this is exactly "in bounds and pairwise
non-overlapping", mirroring the spec's rejection rule
`edit[i].endIndex > edit[i+1].startIndex`. -/
def okChainB : Int → Int → List TextChange → Bool
  | _, _, [] => true
  | lo, hi, c :: r =>
      (lo ≤ c.startIndex) && (c.startIndex ≤ c.endIndex) && (c.endIndex ≤ hi) &&
        okChainB c.endIndex hi r

/-- One edit applied alone: replace the range `[s, e)` of `w` by `n`. -/
def applyOne (w : List Char) (s e : Int) (n : List Char) : List Char :=
  w.take s.toNat ++ n ++ w.drop e.toNat

/-- Sequential one-at-a-time application of edits in ascending index
order, each applied to the result of the previous application.  `base`
is the original-text position to which the front of `w` corresponds: the
first edit replaces `[startIndex - base, endIndex - base)` of the
current text, and the remaining edits are applied to the untouched
suffix of the result.  This is the specification-level semantics against
which the offset bookkeeping of `getCurrentText` is verified. -/
def seqApply (base : Int) (w : List Char) : List TextChange → List Char
  | [] => w
  | c :: r =>
      w.take (c.startIndex - base).toNat ++ c.newText ++
        seqApply c.endIndex (w.drop (c.endIndex - base).toNat) r

theorem seqApply_single (w : List Char) (c : TextChange) :
    seqApply 0 w [c] = applyOne w c.startIndex c.endIndex c.newText := by
  simp [seqApply, applyOne]

theorem jsSubstring_of_le (w : List Char) (a b : Int) (h0 : 0 ≤ a) (hab : a ≤ b)
    (hb : b ≤ (w.length : Int)) :
    jsSubstring w a b = (w.take b.toNat).drop a.toNat := by
  simp only [jsSubstring]
  rw [if_neg (by omega : ¬ a < 0), if_neg (by omega : ¬ (w.length : Int) < a),
    if_neg (by omega : ¬ b < 0), if_neg (by omega : ¬ (w.length : Int) < b),
    if_pos hab]

theorem jsSubstring_zero (w : List Char) (k : Int) (h0 : 0 ≤ k)
    (hk : k ≤ (w.length : Int)) : jsSubstring w 0 k = w.take k.toNat := by
  rw [jsSubstring_of_le w 0 k le_rfl h0 hk]
  simp

theorem jsSubstring_toEnd (w : List Char) (k : Int) (h0 : 0 ≤ k)
    (hk : k ≤ (w.length : Int)) : jsSubstring w k (w.length : Int) = w.drop k.toNat := by
  rw [jsSubstring_of_le w k _ h0 hk le_rfl]
  simp

theorem replaceRange_of_le (w : List Char) (s e : Int) (n : List Char) (h0 : 0 ≤ s)
    (hse : s ≤ e) (he : e ≤ (w.length : Int)) :
    replaceRange w s e n = (w.take s.toNat ++ n) ++ w.drop e.toNat := by
  unfold replaceRange
  rw [jsSubstring_zero w s h0 (le_trans hse he), jsSubstring_toEnd w e (le_trans h0 hse) he]

theorem okChainB_cons {lo hi : Int} {c : TextChange} {r : List TextChange} :
    okChainB lo hi (c :: r) = true ↔
      lo ≤ c.startIndex ∧ c.startIndex ≤ c.endIndex ∧ c.endIndex ≤ hi ∧
        okChainB c.endIndex hi r = true := by
  simp [okChainB, Bool.and_eq_true, decide_eq_true_iff, and_assoc]

theorem okChainB_mono {lo lo' hi : Int} {cs : List TextChange}
    (h : okChainB lo hi cs = true) (hlo : lo' ≤ lo) : okChainB lo' hi cs = true := by
  cases cs with
  | nil => rfl
  | cons c r =>
      rw [okChainB_cons] at h ⊢
      exact ⟨le_trans hlo h.1, h.2⟩

theorem seqApply_append (A B : List Char) (base hi : Int) (cs : List TextChange)
    (h : okChainB (base + (A.length : Int)) hi cs = true) :
    seqApply base (A ++ B) cs = A ++ seqApply (base + (A.length : Int)) B cs := by
  cases cs with
  | nil => simp [seqApply]
  | cons c r =>
      rw [okChainB_cons] at h
      obtain ⟨h1, h2, _, _⟩ := h
      simp only [seqApply]
      have hs : (c.startIndex - base).toNat =
          A.length + (c.startIndex - (base + (A.length : Int))).toNat := by omega
      have he : (c.endIndex - base).toNat =
          A.length + (c.endIndex - (base + (A.length : Int))).toNat := by omega
      rw [hs, he, List.take_append, List.drop_append]
      simp

theorem applyChangesFold_eq_seqApply :
    ∀ (cs : List TextChange) (w : List Char) (off : Int),
      okChainB (-off) ((w.length : Int) - off) cs = true →
      applyChangesFold w off cs = seqApply (-off) w cs := by
  intro cs
  induction cs with
  | nil => intro w off _; rfl
  | cons c r ih =>
      intro w off h
      rw [okChainB_cons] at h
      obtain ⟨h1, h2, h3, h4⟩ := h
      have hb0 : 0 ≤ c.startIndex + off := by omega
      have hb1 : c.startIndex + off ≤ c.endIndex + off := by omega
      have hb2 : c.endIndex + off ≤ (w.length : Int) := by omega
      have hfold : applyChangesFold w off (c :: r) =
          applyChangesFold (replaceRange w (c.startIndex + off) (c.endIndex + off) c.newText)
            (off + (c.newText.length : Int) - (c.endIndex - c.startIndex)) r := rfl
      rw [hfold, replaceRange_of_le w _ _ _ hb0 hb1 hb2]
      have hAlen : ((w.take (c.startIndex + off).toNat ++ c.newText).length : Int) =
          (c.startIndex + off) + (c.newText.length : Int) := by
        simp [List.length_take]
        omega
      have hBlen : ((w.drop (c.endIndex + off).toNat).length : Int) =
          (w.length : Int) - (c.endIndex + off) := by
        simp [List.length_drop]
        omega
      have hlen : (((w.take (c.startIndex + off).toNat ++ c.newText) ++
            w.drop (c.endIndex + off).toNat).length : Int) -
            (off + (c.newText.length : Int) - (c.endIndex - c.startIndex)) =
          (w.length : Int) - off := by
        simp only [List.length_append] at hAlen hBlen ⊢
        push_cast at hAlen hBlen ⊢
        omega
      have hchain : okChainB (-(off + (c.newText.length : Int) - (c.endIndex - c.startIndex)))
          ((((w.take (c.startIndex + off).toNat ++ c.newText) ++
              w.drop (c.endIndex + off).toNat).length : Int) -
            (off + (c.newText.length : Int) - (c.endIndex - c.startIndex))) r = true := by
        rw [hlen]
        exact okChainB_mono h4 (by omega)
      rw [ih _ _ hchain]
      have hbase : (-(off + (c.newText.length : Int) - (c.endIndex - c.startIndex))) +
          ((w.take (c.startIndex + off).toNat ++ c.newText).length : Int) = c.endIndex := by
        rw [hAlen]; omega
      rw [seqApply_append _ _ _ ((w.length : Int) - off) r (by rw [hbase]; exact h4), hbase]
      show _ = (w.take (c.startIndex - -off).toNat ++ c.newText) ++
        seqApply c.endIndex (w.drop (c.endIndex - -off).toNat) r
      have e1 : c.startIndex - -off = c.startIndex + off := by omega
      have e2 : c.endIndex - -off = c.endIndex + off := by omega
      rw [e1, e2]

theorem concatTexts_append (l₁ l₂ : List TextSegment) :
    concatTexts (l₁ ++ l₂) = concatTexts l₁ ++ concatTexts l₂ := by
  induction l₁ with
  | nil => rfl
  | cons s r ih => simp [concatTexts, ih]

theorem applyChangesLoop_concat :
    ∀ (cs : List TextChange) (segs : List TextSegment) (cI : Int) (w : List Char) (off : Int),
      okChainB (cI - off) ((w.length : Int) - off) cs = true →
      0 ≤ cI → cI ≤ (w.length : Int) →
      concatTexts segs = w.take cI.toNat →
      concatTexts (finishSegments (applyChangesLoop segs cI w off cs)) =
        applyChangesFold w off cs := by
  intro cs
  induction cs with
  | nil =>
      intro segs cI w off _ h0 h1 hseg
      show concatTexts (finishSegments (segs, cI, w)) = w
      simp only [finishSegments]
      by_cases hlt : cI < (w.length : Int)
      · rw [if_pos hlt, jsSubstring_toEnd w cI h0 h1]
        have hne : w.drop cI.toNat ≠ [] := by
          apply List.ne_nil_of_length_pos
          rw [List.length_drop]
          omega
        rw [if_pos hne, concatTexts_append, hseg]
        simp [concatTexts]
      · rw [if_neg hlt, hseg]
        have : cI.toNat = w.length := by omega
        rw [this, List.take_length]
  | cons c r ih =>
      intro segs cI w off h h0 h1 hseg
      rw [okChainB_cons] at h
      obtain ⟨hc1, hc2, hc3, hc4⟩ := h
      have hAS : cI ≤ c.startIndex + off := by omega
      have hA0 : 0 ≤ c.startIndex + off := by omega
      have hSE : c.startIndex + off ≤ c.endIndex + off := by omega
      have hE : c.endIndex + off ≤ (w.length : Int) := by omega
      have hstep : applyChangesLoop segs cI w off (c :: r) =
          applyChangesLoop
            ((if cI < c.startIndex + off then
                (if jsSubstring w cI (c.startIndex + off) ≠ [] then
                  segs ++ [⟨jsSubstring w cI (c.startIndex + off), false, none⟩] else segs)
              else segs) ++ [⟨c.newText, true, some c.id⟩])
            ((c.startIndex + off) + (c.newText.length : Int))
            (replaceRange w (c.startIndex + off) (c.endIndex + off) c.newText)
            (off + (c.newText.length : Int) - (c.endIndex - c.startIndex)) r := rfl
      have hfold : applyChangesFold w off (c :: r) =
          applyChangesFold (replaceRange w (c.startIndex + off) (c.endIndex + off) c.newText)
            (off + (c.newText.length : Int) - (c.endIndex - c.startIndex)) r := rfl
      rw [hstep, hfold]
      rw [replaceRange_of_le w _ _ _ hA0 hSE hE]
      have hw'len : (((w.take (c.startIndex + off).toNat ++ c.newText) ++
            w.drop (c.endIndex + off).toNat).length : Int) =
          (c.startIndex + off) + (c.newText.length : Int) +
            ((w.length : Int) - (c.endIndex + off)) := by
        simp only [List.length_append, List.length_take, List.length_drop]
        push_cast
        omega
      apply ih
      · have hlo : (c.startIndex + off) + (c.newText.length : Int) -
            (off + (c.newText.length : Int) - (c.endIndex - c.startIndex)) = c.endIndex := by
          omega
        have hhi : (((w.take (c.startIndex + off).toNat ++ c.newText) ++
              w.drop (c.endIndex + off).toNat).length : Int) -
              (off + (c.newText.length : Int) - (c.endIndex - c.startIndex)) =
            (w.length : Int) - off := by
          rw [hw'len]; omega
        rw [hlo, hhi]
        exact hc4
      · omega
      · rw [hw'len]; omega
      · -- the segments emitted so far concatenate to the prefix of the
        -- new working text up to the new currentIndex
        have htake : ((w.take (c.startIndex + off).toNat ++ c.newText) ++
              w.drop (c.endIndex + off).toNat).take
                ((c.startIndex + off) + (c.newText.length : Int)).toNat =
            w.take (c.startIndex + off).toNat ++ c.newText := by
          have hlen2 : ((c.startIndex + off) + (c.newText.length : Int)).toNat =
              (w.take (c.startIndex + off).toNat ++ c.newText).length := by
            simp only [List.length_append, List.length_take]
            omega
          rw [hlen2, List.take_left]
        rw [htake, concatTexts_append]
        by_cases hcs : cI < c.startIndex + off
        · rw [if_pos hcs]
          have hsub : jsSubstring w cI (c.startIndex + off) =
              (w.take (c.startIndex + off).toNat).drop cI.toNat :=
            jsSubstring_of_le w cI _ h0 (le_of_lt hcs) (le_trans hSE hE)
          have hne : jsSubstring w cI (c.startIndex + off) ≠ [] := by
            rw [hsub]
            apply List.ne_nil_of_length_pos
            simp only [List.length_drop, List.length_take]
            omega
          rw [if_pos hne, concatTexts_append, hseg, hsub]
          have hpre : w.take cI.toNat = (w.take (c.startIndex + off).toNat).take cI.toNat := by
            rw [List.take_take]
            have hmin : min cI.toNat (c.startIndex + off).toNat = cI.toNat := by omega
            rw [hmin]
          simp only [concatTexts, List.append_nil]
          rw [hpre, List.take_append_drop]
        · rw [if_neg hcs]
          have hcieq : cI = c.startIndex + off := by omega
          rw [hseg, hcieq]
          simp [concatTexts]

/-- Claim C1: for every transcript row and every batch of recorded
changes that, after the `startIndex` sort used by the code, is in
bounds and pairwise non-overlapping against the original text (the
spec's own `edit[i].endIndex > edit[i+1].startIndex` criterion, captured
by `okChainB`), the composed application implemented by
`getCurrentText` — sort by `startIndex` ascending, then apply each edit
left-to-right while tracking a running length offset — produces the same
final text as applying the edits one at a time in ascending index order,
each applied to the result of the previous application (`seqApply`). -/
theorem C1_getCurrentText_eq_one_at_a_time (changes : List TextChange)
    (transcript : TranscriptItem)
    (h : okChainB 0 (transcript.text.length : Int)
        (sortChanges (changes.filter (fun c => c.transcriptId == transcript.id))) = true) :
    getCurrentText changes transcript =
      seqApply 0 transcript.text
        (sortChanges (changes.filter (fun c => c.transcriptId == transcript.id))) := by
  simp only [getCurrentText]
  by_cases hlen : (changes.filter (fun c => c.transcriptId == transcript.id)).length = 0
  · rw [if_pos hlen, List.length_eq_zero.mp hlen]
    rfl
  · rw [if_neg hlen]
    have h' : okChainB (-(0 : Int)) ((transcript.text.length : Int) - 0)
        (sortChanges (changes.filter (fun c => c.transcriptId == transcript.id))) = true := by
      simpa using h
    simpa using applyChangesFold_eq_seqApply _ transcript.text 0 h'

/-- A transcript row and two non-overlapping changes (listed out of
order) used to witness the clean claims. -/
def wItem : TranscriptItem := ⟨"t1", "Speaker", "00:00", "abcdef".toList, false, none, none⟩

def wChangeA : TextChange := ⟨"11", "t1", "00:00", "e".toList, "Q".toList, 4, 5, "t"⟩

def wChangeB : TextChange := ⟨"12", "t1", "00:00", "bc".toList, "XY".toList, 1, 3, "t"⟩

theorem C1_witness :
    okChainB 0 ((wItem.text.length : Int))
        (sortChanges ([wChangeA, wChangeB].filter (fun c => c.transcriptId == wItem.id))) =
        true ∧
      getCurrentText [wChangeA, wChangeB] wItem =
        seqApply 0 wItem.text
          (sortChanges ([wChangeA, wChangeB].filter (fun c => c.transcriptId == wItem.id))) :=
  ⟨by decide, C1_getCurrentText_eq_one_at_a_time [wChangeA, wChangeB] wItem (by decide)⟩

/-- Claim C10: if no recorded change's `transcriptId` equals the
transcript item's id, `getCurrentText` returns the item's original text
unchanged — the empty edit batch is the identity on segment text. -/
theorem C10_no_changes_identity (changes : List TextChange) (transcript : TranscriptItem)
    (h : ∀ c ∈ changes, c.transcriptId ≠ transcript.id) :
    getCurrentText changes transcript = transcript.text := by
  simp only [getCurrentText]
  have hfil : changes.filter (fun c => c.transcriptId == transcript.id) = [] :=
    List.filter_eq_nil_iff.mpr (fun c hc => by simpa using h c hc)
  rw [hfil]
  rfl

def wOtherChange : TextChange := ⟨"13", "t9", "00:00", "e".toList, "Q".toList, 4, 5, "t"⟩

theorem C10_witness :
    (∀ c ∈ [wOtherChange], c.transcriptId ≠ wItem.id) ∧
      getCurrentText [wOtherChange] wItem = wItem.text :=
  ⟨by decide, C10_no_changes_identity [wOtherChange] wItem (by decide)⟩

def overlapChange1 : TextChange := ⟨"1", "t1", "00:00", "abcde".toList, "X".toList, 0, 5, "t"⟩

def overlapChange2 : TextChange := ⟨"2", "t1", "00:00", "cdefg".toList, "Y".toList, 3, 8, "t"⟩

/-- Counterexample to claim C8 as stated: on the original text
`"abcdef"` with the two overlapping changes `[0,5) ↦ "X"` and
`[3,8) ↦ "Y"`, concatenating the `text` fields of
`applyChangesToText` yields `"XYY"` while `getCurrentText` yields `"Y"`;
the two functions disagree, so the equivalence does not hold for every
list of changes. -/
theorem C8_counterexample :
    ¬ (concatTexts (applyChangesToText wItem.text
          ([overlapChange1, overlapChange2].filter (fun c => c.transcriptId == wItem.id))) =
        getCurrentText [overlapChange1, overlapChange2] wItem) := by
  decide

/-- Claim C8 (amended): for every transcript row and every batch of
recorded changes that, after the `startIndex` sort used by the code, is
in bounds and pairwise non-overlapping against the original text,
concatenating the `text` fields of the `TextSegment` list returned by
`applyChangesToText`, in order, yields exactly the same string as
`getCurrentText` applied to the same text and changes. -/
theorem C8_concat_segments_eq_getCurrentText (changes : List TextChange)
    (transcript : TranscriptItem)
    (h : okChainB 0 (transcript.text.length : Int)
        (sortChanges (changes.filter (fun c => c.transcriptId == transcript.id))) = true) :
    concatTexts (applyChangesToText transcript.text
        (changes.filter (fun c => c.transcriptId == transcript.id))) =
      getCurrentText changes transcript := by
  simp only [getCurrentText, applyChangesToText]
  by_cases hlen : (changes.filter (fun c => c.transcriptId == transcript.id)).length = 0
  · rw [if_pos hlen, if_pos hlen]
    simp [concatTexts]
  · rw [if_neg hlen, if_neg hlen]
    apply applyChangesLoop_concat _ [] 0 transcript.text 0
    · simpa using h
    · exact le_rfl
    · exact Int.natCast_nonneg _
    · rfl

theorem C8_witness :
    okChainB 0 ((wItem.text.length : Int))
        (sortChanges ([wChangeA, wChangeB].filter (fun c => c.transcriptId == wItem.id))) =
        true ∧
      concatTexts (applyChangesToText wItem.text
          ([wChangeA, wChangeB].filter (fun c => c.transcriptId == wItem.id))) =
        getCurrentText [wChangeA, wChangeB] wItem :=
  ⟨by decide, C8_concat_segments_eq_getCurrentText [wChangeA, wChangeB] wItem (by decide)⟩

/-- The strict key order on changes, used to show that the sort result
is unique when `startIndex` values are pairwise distinct. -/
def ltStart (a b : TextChange) : Prop := a.startIndex < b.startIndex

instance : IsAntisymm TextChange ltStart :=
  ⟨fun _ _ h₁ h₂ => absurd (lt_trans h₁ h₂) (lt_irrefl _)⟩

theorem sorted_ltStart_of_distinct {l : List TextChange} (hs : l.Sorted leStart)
    (hd : l.Pairwise (fun a b => a.startIndex ≠ b.startIndex)) : l.Sorted ltStart :=
  (hs.and hd).imp (fun h => lt_of_le_of_ne h.1 h.2)

theorem sortChanges_eq_of_perm {cs cs' : List TextChange} (hp : cs.Perm cs')
    (hd : cs.Pairwise (fun a b => a.startIndex ≠ b.startIndex)) :
    sortChanges cs = sortChanges cs' := by
  have hsym : ∀ {a b : TextChange},
      a.startIndex ≠ b.startIndex → b.startIndex ≠ a.startIndex := fun h => h.symm
  have hd₁ : (sortChanges cs).Pairwise (fun a b => a.startIndex ≠ b.startIndex) :=
    ((List.perm_insertionSort leStart cs).pairwise_iff hsym).mpr hd
  have hd₂ : (sortChanges cs').Pairwise (fun a b => a.startIndex ≠ b.startIndex) :=
    ((List.perm_insertionSort leStart cs').pairwise_iff hsym).mpr ((hp.pairwise_iff hsym).mp hd)
  exact List.eq_of_perm_of_sorted
    ((List.perm_insertionSort leStart cs).trans
      (hp.trans (List.perm_insertionSort leStart cs').symm))
    (sorted_ltStart_of_distinct (List.sorted_insertionSort leStart cs) hd₁)
    (sorted_ltStart_of_distinct (List.sorted_insertionSort leStart cs') hd₂)

/-- Claim C9: for changes targeting one segment that are pairwise
non-overlapping and have pairwise distinct `startIndex` values,
`getCurrentText` returns the same final text on every permutation of the
recorded change list — the result depends only on the set of changes,
because the changes are sorted by `startIndex` before being applied. -/
theorem C9_permutation_invariant (changes changes' : List TextChange)
    (transcript : TranscriptItem) (hp : changes.Perm changes')
    (hno : (changes.filter (fun c => c.transcriptId == transcript.id)).Pairwise
      (fun a b => a.endIndex ≤ b.startIndex ∨ b.endIndex ≤ a.startIndex))
    (hd : (changes.filter (fun c => c.transcriptId == transcript.id)).Pairwise
      (fun a b => a.startIndex ≠ b.startIndex)) :
    getCurrentText changes transcript = getCurrentText changes' transcript := by
  have hpf : (changes.filter (fun c => c.transcriptId == transcript.id)).Perm
      (changes'.filter (fun c => c.transcriptId == transcript.id)) :=
    hp.filter _
  simp only [getCurrentText]
  rw [hpf.length_eq, sortChanges_eq_of_perm hpf hd]

theorem C9_witness :
    ([wChangeA, wChangeB] : List TextChange).Perm [wChangeB, wChangeA] ∧
      (([wChangeA, wChangeB] : List TextChange).filter
          (fun c => c.transcriptId == wItem.id)).Pairwise
        (fun a b => a.endIndex ≤ b.startIndex ∨ b.endIndex ≤ a.startIndex) ∧
      (([wChangeA, wChangeB] : List TextChange).filter
          (fun c => c.transcriptId == wItem.id)).Pairwise
        (fun a b => a.startIndex ≠ b.startIndex) ∧
      getCurrentText [wChangeA, wChangeB] wItem = getCurrentText [wChangeB, wChangeA] wItem :=
  ⟨by decide, by decide, by decide,
    C9_permutation_invariant [wChangeA, wChangeB] [wChangeB, wChangeA] wItem
      (by decide) (by decide) (by decide)⟩

/-- Canonical transcript segment of the Transcript Model (spec §3; also
the `TranscriptSegment` interface in the frontend types).  Times are
modelled as rationals. -/
structure TranscriptSegment where
  id : String
  startTime : ℚ
  endTime : ℚ
  speaker : String
  text : List Char
  confidence : Option ℚ
deriving DecidableEq

/-- A raw text edit submitted to the engine (spec §3 `TextEdit`): a
character-range substitution within one segment's text. -/
structure TextEdit where
  segmentId : String
  oldText : List Char
  newText : List Char
  startIndex : Int
  endIndex : Int
deriving DecidableEq

/-- The Edit Resolver's failure modes (spec §4.2). -/
inductive ResolveError where
  | TextMismatch
  | OverlappingEdits
  | UnknownSegment
deriving DecidableEq

def leEditStart (a b : TextEdit) : Prop := a.startIndex ≤ b.startIndex

instance : DecidableRel leEditStart := fun a b => Int.decLe a.startIndex b.startIndex

instance : IsTotal TextEdit leEditStart := ⟨fun a b => Int.le_total a.startIndex b.startIndex⟩

instance : IsTrans TextEdit leEditStart := ⟨fun _ _ _ h₁ h₂ => le_trans h₁ h₂⟩

/-- Modelled from the spec: the Edit Resolver is not present in the
repository snapshot (only the frontend and backend READMEs are); spec
§4.2 sorts each per-segment group of edits by `startIndex` ascending. -/
def sortEdits (es : List TextEdit) : List TextEdit := List.insertionSort leEditStart es

/-- Modelled from the spec (§3 `EditPlan`): the ordered, deduplicated
list of segment ids affected by a batch, in first-occurrence order. -/
def segmentIds (edits : List TextEdit) : List String :=
  edits.foldl (fun acc e => if acc.contains e.segmentId then acc else acc ++ [e.segmentId]) []

/-- The edits of a batch that target one segment (spec §4.2 "group by
`segmentId`"). -/
def groupFor (edits : List TextEdit) (sid : String) : List TextEdit :=
  edits.filter (fun e => e.segmentId == sid)

/-- Modelled from the spec (§4.2): within a sorted group, two
consecutive edits overlap when `edit[i].endIndex > edit[i+1].startIndex`. -/
def hasOverlap : List TextEdit → Bool
  | [] => false
  | [_] => false
  | a :: b :: r => (b.startIndex < a.endIndex) || hasOverlap (b :: r)

/-- The `[s, e)` slice of a segment's text, against which an edit's
`oldText` is compared (spec §4.1). -/
def sliceText (t : List Char) (s e : Int) : List Char := (t.take e.toNat).drop s.toNat

/-- Modelled from the spec (§4.1, §4.2): apply a sorted group of edits
to a segment's text sequentially left-to-right with a running length
offset — the same algorithm the UI preview uses — failing with
`TextMismatch` when an edit's `oldText` does not match the live segment
text at `[startIndex, endIndex)`. -/
def applyGroup (orig : List Char) : List Char → Int → List TextEdit →
    Except ResolveError (List Char)
  | w, _, [] => .ok w
  | w, off, e :: r =>
      if sliceText orig e.startIndex e.endIndex = e.oldText then
        applyGroup orig (replaceRange w (e.startIndex + off) (e.endIndex + off) e.newText)
          (off + (e.newText.length : Int) - (e.endIndex - e.startIndex)) r
      else .error .TextMismatch

/-- Look up a segment of the transcript by id. -/
def findSegment (segments : List TranscriptSegment) (sid : String) :
    Option TranscriptSegment :=
  segments.find? (fun s => s.id == sid)

/-- Modelled from the spec (§4.2): resolve each affected segment group
in order, failing with `UnknownSegment` when the id is not in the
transcript, and otherwise reducing the group to the segment's new text. -/
def resolveGroups (segments : List TranscriptSegment) (edits : List TextEdit) :
    List String → Except ResolveError (List (String × List Char))
  | [] => .ok []
  | sid :: rest =>
      match findSegment segments sid with
      | none => .error .UnknownSegment
      | some seg =>
          match applyGroup seg.text seg.text 0 (sortEdits (groupFor edits sid)) with
          | .error err => .error err
          | .ok newText =>
              match resolveGroups segments edits rest with
              | .error err => .error err
              | .ok rest' => .ok ((sid, newText) :: rest')

/-- Modelled from the spec (§4.2, §7): the Edit Resolver groups the
batch by segment, rejects it with `OverlappingEdits` if any two edits in
the same sorted group overlap, and otherwise reduces every group to a
single new text per segment; all validation happens before any network
call. -/
def resolveEdits (segments : List TranscriptSegment) (edits : List TextEdit) :
    Except ResolveError (List (String × List Char)) :=
  if (segmentIds edits).any (fun sid => hasOverlap (sortEdits (groupFor edits sid))) then
    .error .OverlappingEdits
  else resolveGroups segments edits (segmentIds edits)

/-- Modelled from the spec (§4.3, §5, §7): validation errors are
rejected before any network call, so the synthesis calls issued for a
batch are one per entry of a successfully resolved edit plan, and none
at all when resolution fails. -/
def synthesisCalls (segments : List TranscriptSegment) (edits : List TextEdit) :
    List (String × List Char) :=
  match resolveEdits segments edits with
  | .error _ => []
  | .ok plan => plan

theorem mem_foldl_segmentIds (l : List TextEdit) :
    ∀ (acc : List String) (a : String), a ∈ acc →
      a ∈ l.foldl (fun acc e =>
        if acc.contains e.segmentId then acc else acc ++ [e.segmentId]) acc := by
  induction l with
  | nil => intro acc a h; exact h
  | cons e r ih =>
      intro acc a h
      simp only [List.foldl_cons]
      by_cases hc : acc.contains e.segmentId
      · rw [if_pos hc]; exact ih acc a h
      · rw [if_neg hc]; exact ih _ a (List.mem_append_left _ h)

theorem mem_segmentIds {e : TextEdit} {edits : List TextEdit} (h : e ∈ edits) :
    e.segmentId ∈ segmentIds edits := by
  unfold segmentIds
  suffices H : ∀ (l : List TextEdit) (acc : List String), e ∈ l →
      e.segmentId ∈ l.foldl (fun acc x =>
        if acc.contains x.segmentId then acc else acc ++ [x.segmentId]) acc from
    H edits [] h
  intro l
  induction l with
  | nil => intro acc hmem; cases hmem
  | cons x r ih =>
      intro acc hmem
      simp only [List.foldl_cons]
      rcases List.mem_cons.mp hmem with heq | hr
      · by_cases hc : acc.contains x.segmentId
        · rw [if_pos hc, heq]
          exact mem_foldl_segmentIds r acc x.segmentId (List.mem_of_elem_eq_true hc)
        · rw [if_neg hc, heq]
          exact mem_foldl_segmentIds r _ x.segmentId
            (List.mem_append_right _ (List.mem_singleton.mpr rfl))
      · by_cases hc : acc.contains x.segmentId
        · rw [if_pos hc]; exact ih acc hr
        · rw [if_neg hc]; exact ih _ hr

theorem segmentIds_sound {edits : List TextEdit} :
    ∀ sid ∈ segmentIds edits, ∃ e ∈ edits, e.segmentId = sid := by
  unfold segmentIds
  suffices H : ∀ (l : List TextEdit) (acc : List String) (sid : String),
      sid ∈ l.foldl (fun acc x =>
        if acc.contains x.segmentId then acc else acc ++ [x.segmentId]) acc →
      sid ∈ acc ∨ ∃ e ∈ l, e.segmentId = sid by
    intro sid hsid
    rcases H edits [] sid hsid with h | h
    · cases h
    · exact h
  intro l
  induction l with
  | nil => intro acc sid hmem; exact Or.inl hmem
  | cons x r ih =>
      intro acc sid hmem
      simp only [List.foldl_cons] at hmem
      by_cases hc : acc.contains x.segmentId
      · rw [if_pos hc] at hmem
        rcases ih acc sid hmem with h | ⟨e, he, hes⟩
        · exact Or.inl h
        · exact Or.inr ⟨e, List.mem_cons_of_mem x he, hes⟩
      · rw [if_neg hc] at hmem
        rcases ih _ sid hmem with h | ⟨e, he, hes⟩
        · rcases List.mem_append.mp h with h' | h'
          · exact Or.inl h'
          · exact Or.inr ⟨x, List.mem_cons_self x r, (List.mem_singleton.mp h').symm⟩
        · exact Or.inr ⟨e, List.mem_cons_of_mem x he, hes⟩

/-- Two edits whose character ranges `[startIndex, endIndex)` intersect. -/
def overlapPair (a b : TextEdit) : Prop :=
  max a.startIndex b.startIndex < min a.endIndex b.endIndex

theorem hasOverlap_of_mem :
    ∀ (l : List TextEdit), l.Sorted leEditStart → ∀ a b : TextEdit,
      a ∈ l → b ∈ l → a ≠ b → overlapPair a b → hasOverlap l = true := by
  intro l
  induction l with
  | nil => intro _ a b ha _ _ _; cases ha
  | cons x t ih =>
      intro hs a b ha hb hne hov
      have hmix : ∀ m : TextEdit, m ∈ t → m.startIndex < x.endIndex →
          hasOverlap (x :: t) = true := by
        intro m hm hlt
        cases t with
        | nil => cases hm
        | cons y t' =>
            have hy : y.startIndex ≤ m.startIndex := by
              rcases List.mem_cons.mp hm with heq | hm'
              · rw [heq]
              · exact List.rel_of_sorted_cons (List.sorted_cons.mp hs).2 m hm'
            show ((decide (y.startIndex < x.endIndex)) || hasOverlap (y :: t')) = true
            rw [Bool.or_eq_true]
            exact Or.inl (decide_eq_true (lt_of_le_of_lt hy hlt))
      rcases List.mem_cons.mp ha with hax | hat
      · rcases List.mem_cons.mp hb with hbx | hbt
        · exact absurd (hax.trans hbx.symm) hne
        · refine hmix b hbt ?_
          have hlt : b.startIndex < a.endIndex :=
            lt_of_le_of_lt (le_max_right a.startIndex b.startIndex)
              (lt_of_lt_of_le hov (min_le_left a.endIndex b.endIndex))
          rw [hax] at hlt
          exact hlt
      · rcases List.mem_cons.mp hb with hbx | hbt
        · refine hmix a hat ?_
          have hlt : a.startIndex < b.endIndex :=
            lt_of_le_of_lt (le_max_left a.startIndex b.startIndex)
              (lt_of_lt_of_le hov (min_le_right a.endIndex b.endIndex))
          rw [hbx] at hlt
          exact hlt
        · have htail := ih (List.sorted_cons.mp hs).2 a b hat hbt hne hov
          cases t with
          | nil => cases hat
          | cons y t' =>
              show ((decide (y.startIndex < x.endIndex)) || hasOverlap (y :: t')) = true
              rw [Bool.or_eq_true]
              exact Or.inr htail

/-- Claim C3: for every batch containing two distinct edits on the same
segment whose character ranges overlap, the Edit Resolver fails with
`OverlappingEdits` and no synthesis call is made. -/
theorem C3_overlapping_edits_rejected (segments : List TranscriptSegment)
    (edits : List TextEdit) (e₁ e₂ : TextEdit) (h₁ : e₁ ∈ edits) (h₂ : e₂ ∈ edits)
    (hne : e₁ ≠ e₂) (hsid : e₁.segmentId = e₂.segmentId)
    (hov : max e₁.startIndex e₂.startIndex < min e₁.endIndex e₂.endIndex) :
    resolveEdits segments edits = .error .OverlappingEdits ∧
      synthesisCalls segments edits = [] := by
  have hmem₁ : e₁ ∈ groupFor edits e₁.segmentId := by
    simp [groupFor, List.mem_filter, h₁]
  have hmem₂ : e₂ ∈ groupFor edits e₁.segmentId := by
    simp [groupFor, List.mem_filter, h₂, hsid.symm]
  have hover : hasOverlap (sortEdits (groupFor edits e₁.segmentId)) = true :=
    hasOverlap_of_mem _ (List.sorted_insertionSort leEditStart _) e₁ e₂
      ((List.mem_insertionSort leEditStart).mpr hmem₁)
      ((List.mem_insertionSort leEditStart).mpr hmem₂) hne hov
  have hany : (segmentIds edits).any
      (fun sid => hasOverlap (sortEdits (groupFor edits sid))) = true :=
    List.any_eq_true.mpr ⟨e₁.segmentId, mem_segmentIds h₁, hover⟩
  have herr : resolveEdits segments edits = .error .OverlappingEdits := by
    unfold resolveEdits
    rw [if_pos hany]
  refine ⟨herr, ?_⟩
  unfold synthesisCalls
  rw [herr]

def overlapEditA : TextEdit := ⟨"s1", "Monda".toList, "Frida".toList, 0, 5⟩

def overlapEditB : TextEdit := ⟨"s1", "day s".toList, "week".toList, 3, 8⟩

def wSegment : TranscriptSegment := ⟨"s1", 10, 12, "Speaker", "Monday sale".toList, none⟩

theorem C3_witness :
    (overlapEditA ∈ [overlapEditA, overlapEditB] ∧ overlapEditB ∈ [overlapEditA, overlapEditB] ∧
        overlapEditA ≠ overlapEditB ∧ overlapEditA.segmentId = overlapEditB.segmentId ∧
        max overlapEditA.startIndex overlapEditB.startIndex <
          min overlapEditA.endIndex overlapEditB.endIndex) ∧
      resolveEdits [wSegment] [overlapEditA, overlapEditB] =
          .error .OverlappingEdits ∧
        synthesisCalls [wSegment] [overlapEditA, overlapEditB] = [] :=
  ⟨⟨by decide, by decide, by decide, by decide, by decide⟩,
    C3_overlapping_edits_rejected [wSegment] [overlapEditA, overlapEditB]
      overlapEditA overlapEditB (by decide) (by decide) (by decide) (by decide) (by decide)⟩

theorem applyGroup_error_eq {orig : List Char} :
    ∀ (g : List TextEdit) (w : List Char) (off : Int) (err : ResolveError),
      applyGroup orig w off g = .error err → err = .TextMismatch := by
  intro g
  induction g with
  | nil => intro w off err h; simp [applyGroup] at h
  | cons e r ih =>
      intro w off err h
      by_cases hm : sliceText orig e.startIndex e.endIndex = e.oldText
      · rw [applyGroup, if_pos hm] at h
        exact ih _ _ err h
      · rw [applyGroup, if_neg hm] at h
        exact (Except.error.injEq _ _ ▸ congrArg id h : (ResolveError.TextMismatch = err)).symm

theorem applyGroup_mismatch {orig : List Char} {x : TextEdit}
    (hx : sliceText orig x.startIndex x.endIndex ≠ x.oldText) :
    ∀ (g : List TextEdit) (w : List Char) (off : Int), x ∈ g →
      applyGroup orig w off g = .error .TextMismatch := by
  intro g
  induction g with
  | nil => intro w off h; cases h
  | cons e r ih =>
      intro w off hmem
      by_cases hm : sliceText orig e.startIndex e.endIndex = e.oldText
      · rw [applyGroup, if_pos hm]
        rcases List.mem_cons.mp hmem with heq | hr
        · exact absurd hm (heq ▸ hx)
        · exact ih _ _ hr
      · rw [applyGroup, if_neg hm]

theorem resolveGroups_mismatch (segments : List TranscriptSegment) (edits : List TextEdit)
    {x : TextEdit} {seg : TranscriptSegment}
    (hx : x ∈ edits) (hseg : findSegment segments x.segmentId = some seg)
    (hmis : sliceText seg.text x.startIndex x.endIndex ≠ x.oldText) :
    ∀ sids : List String,
      (∀ sid ∈ sids, (findSegment segments sid).isSome = true) →
      x.segmentId ∈ sids →
      resolveGroups segments edits sids = .error .TextMismatch := by
  intro sids
  induction sids with
  | nil => intro _ hmem; cases hmem
  | cons sid rest ih =>
      intro hknown hmem
      obtain ⟨seg', hseg'⟩ :=
        Option.isSome_iff_exists.mp (hknown sid (List.mem_cons_self sid rest))
      rcases List.mem_cons.mp hmem with heq | hr
      · have hseg'' : seg' = seg := by
          rw [← heq] at hseg'
          exact Option.some.inj (hseg'.symm.trans hseg)
        have hgrp : x ∈ sortEdits (groupFor edits sid) := by
          unfold sortEdits
          rw [List.mem_insertionSort]
          simp [groupFor, List.mem_filter, hx, heq]
        simp only [resolveGroups, hseg', hseg'', applyGroup_mismatch hmis _ _ _ hgrp]
      · rcases hres : applyGroup seg'.text seg'.text 0 (sortEdits (groupFor edits sid)) with
          err | newText
        · simp only [resolveGroups, hseg', hres, applyGroup_error_eq _ _ _ err hres]
        · simp only [resolveGroups, hseg', hres,
            ih (fun s hs => hknown s (List.mem_cons_of_mem sid hs)) hr]

/-- Claim C4: for every edit in a batch whose `oldText` does not equal
the live segment text at `[startIndex, endIndex)`, applying that single
edit fails with `TextMismatch`, and — when the batch passes the earlier
validation phases (all segment ids known, no overlapping group) — the
whole batch is rejected with `TextMismatch` and no synthesis call is
made, so no segment text is produced from the stale edit. -/
theorem C4_stale_edit_rejected (segments : List TranscriptSegment) (edits : List TextEdit)
    (x : TextEdit) (seg : TranscriptSegment) (hx : x ∈ edits)
    (hseg : findSegment segments x.segmentId = some seg)
    (hmis : sliceText seg.text x.startIndex x.endIndex ≠ x.oldText)
    (hknown : ∀ e ∈ edits, (findSegment segments e.segmentId).isSome = true)
    (hnov : ∀ sid ∈ segmentIds edits,
      hasOverlap (sortEdits (groupFor edits sid)) = false) :
    applyGroup seg.text seg.text 0 [x] = .error .TextMismatch ∧
      resolveEdits segments edits = .error .TextMismatch ∧
      synthesisCalls segments edits = [] := by
  have hsingle : applyGroup seg.text seg.text 0 [x] = .error .TextMismatch :=
    applyGroup_mismatch hmis [x] _ _ (List.mem_singleton.mpr rfl)
  have hany : ¬ ((segmentIds edits).any
      (fun sid => hasOverlap (sortEdits (groupFor edits sid))) = true) := by
    rw [List.any_eq_true]
    rintro ⟨sid, hsid, htrue⟩
    rw [hnov sid hsid] at htrue
    cases htrue
  have hknown' : ∀ sid ∈ segmentIds edits, (findSegment segments sid).isSome = true := by
    intro sid hsid
    obtain ⟨e, he, rfl⟩ := segmentIds_sound sid hsid
    exact hknown e he
  have herr : resolveEdits segments edits = .error .TextMismatch := by
    unfold resolveEdits
    rw [if_neg hany]
    exact resolveGroups_mismatch segments edits hx hseg hmis _ hknown' (mem_segmentIds hx)
  refine ⟨hsingle, herr, ?_⟩
  unfold synthesisCalls
  rw [herr]

def staleEdit : TextEdit := ⟨"s1", "XYZ".toList, "Friday".toList, 0, 3⟩

theorem C4_witness :
    (staleEdit ∈ [staleEdit] ∧
        findSegment [wSegment] staleEdit.segmentId = some wSegment ∧
        sliceText wSegment.text staleEdit.startIndex staleEdit.endIndex ≠ staleEdit.oldText ∧
        (∀ e ∈ [staleEdit], (findSegment [wSegment] e.segmentId).isSome = true) ∧
        (∀ sid ∈ segmentIds [staleEdit],
          hasOverlap (sortEdits (groupFor [staleEdit] sid)) = false)) ∧
      applyGroup wSegment.text wSegment.text 0 [staleEdit] =
          .error .TextMismatch ∧
        resolveEdits [wSegment] [staleEdit] = .error .TextMismatch ∧
        synthesisCalls [wSegment] [staleEdit] = [] :=
  ⟨⟨by decide, by decide, by decide, by decide, by decide⟩,
    C4_stale_edit_rejected [wSegment] [staleEdit] staleEdit wSegment
      (by decide) (by decide) (by decide) (by decide) (by decide)⟩

/-- Modelled from the spec: the Timeline Reconciler is not present in
the repository snapshot; per spec §4.4 an edited segment's new duration
is the synthesis result's `measuredDuration`, and an unedited segment
keeps its original duration.  `measured` maps an edited segment's id to
its measured duration and is `none` for unedited segments. -/
def newDuration (measured : String → Option ℚ) (s : TranscriptSegment) : ℚ :=
  match measured s.id with
  | some d => d
  | none => s.endTime - s.startTime

/-- Per-segment timeline delta `newDuration - oldDuration` (spec §4.4);
zero for unedited segments. -/
def segDelta (measured : String → Option ℚ) (s : TranscriptSegment) : ℚ :=
  newDuration measured s - (s.endTime - s.startTime)

/-- Running sum of per-segment deltas; since unedited segments
contribute 0, this is the sum over edited segments of
(new duration − old duration). -/
def cumDelta (measured : String → Option ℚ) : List TranscriptSegment → ℚ
  | [] => 0
  | s :: r => segDelta measured s + cumDelta measured r

/-- Modelled from the spec (§4.4): the Timeline Reconciler resizes each
edited segment's span to exactly its measured duration and shifts every
subsequent segment by the running sum of prior deltas; unedited segments
keep their original duration but their start offset moves. -/
def reconcileSegs (measured : String → Option ℚ) (shift : ℚ) :
    List TranscriptSegment → List TranscriptSegment
  | [] => []
  | s :: r =>
      { s with
          startTime := s.startTime + shift,
          endTime := s.startTime + shift + newDuration measured s } ::
        reconcileSegs measured (shift + segDelta measured s) r

theorem reconcileSegs_length (measured : String → Option ℚ) :
    ∀ (segs : List TranscriptSegment) (shift : ℚ),
      (reconcileSegs measured shift segs).length = segs.length := by
  intro segs
  induction segs with
  | nil => intro shift; rfl
  | cons s r ih => intro shift; simp [reconcileSegs, ih]

theorem reconcileSegs_getD (measured : String → Option ℚ) :
    ∀ (segs : List TranscriptSegment) (shift : ℚ) (i : Nat) (d : TranscriptSegment),
      i < segs.length →
      ((reconcileSegs measured shift segs).getD i d).startTime =
          (segs.getD i d).startTime + shift + cumDelta measured (segs.take i) ∧
        ((reconcileSegs measured shift segs).getD i d).endTime -
            ((reconcileSegs measured shift segs).getD i d).startTime =
          newDuration measured (segs.getD i d) := by
  intro segs
  induction segs with
  | nil => intro shift i d hi; cases hi
  | cons s r ih =>
      intro shift i d hi
      cases i with
      | zero =>
          constructor
          · show s.startTime + shift = s.startTime + shift + cumDelta measured []
            simp [cumDelta]
          · show s.startTime + shift + newDuration measured s - (s.startTime + shift) =
              newDuration measured s
            ring
      | succ i =>
          have hi' : i < r.length := Nat.lt_of_succ_lt_succ hi
          have := ih (shift + segDelta measured s) i d hi'
          constructor
          · show ((reconcileSegs measured (shift + segDelta measured s) r).getD i d).startTime =
              (r.getD i d).startTime + shift + cumDelta measured ((s :: r).take (i + 1))
            rw [this.1]
            show _ = _ + shift + cumDelta measured (s :: r.take i)
            simp only [cumDelta]
            ring
          · exact this.2

/-- Claim C2: for every transcript and every assignment of measured
synthesized durations to edited segments, the reconciled segment list
keeps its length, gives every segment a start time shifted forward by
the running sum of prior deltas (`delta = newDuration − oldDuration`),
and gives every segment the duration `newDuration` — exactly
`measuredDuration` for an edited segment and the unchanged original
duration for an unedited one. -/
theorem C2_reconcile_shift_and_resize (measured : String → Option ℚ)
    (segs : List TranscriptSegment) (i : Nat) (d : TranscriptSegment)
    (hi : i < segs.length) :
    (reconcileSegs measured 0 segs).length = segs.length ∧
      ((reconcileSegs measured 0 segs).getD i d).startTime =
        (segs.getD i d).startTime + cumDelta measured (segs.take i) ∧
      ((reconcileSegs measured 0 segs).getD i d).endTime -
          ((reconcileSegs measured 0 segs).getD i d).startTime =
        newDuration measured (segs.getD i d) := by
  have h := reconcileSegs_getD measured segs 0 i d hi
  refine ⟨reconcileSegs_length measured segs 0, ?_, h.2⟩
  rw [h.1]
  ring

def mSeg1 : TranscriptSegment := ⟨"s1", 10, 12, "Speaker", "Monday sale".toList, none⟩

def mSeg2 : TranscriptSegment := ⟨"s2", 12, 15, "Speaker", "next words".toList, none⟩

/-- The measured-duration assignment of the spec's scenario: segment
`s1` edited with synthesized duration 2.4 s. -/
def mMeasured : String → Option ℚ := fun id => if id = "s1" then some (12 / 5) else none

theorem C2_witness :
    (1 < ([mSeg1, mSeg2] : List TranscriptSegment).length) ∧
      ((reconcileSegs mMeasured 0 [mSeg1, mSeg2]).getD 1 mSeg1).startTime =
        (([mSeg1, mSeg2] : List TranscriptSegment).getD 1 mSeg1).startTime +
          cumDelta mMeasured (([mSeg1, mSeg2] : List TranscriptSegment).take 1) ∧
      ((reconcileSegs mMeasured 0 [mSeg1, mSeg2]).getD 0 mSeg1).startTime = 10 ∧
      ((reconcileSegs mMeasured 0 [mSeg1, mSeg2]).getD 0 mSeg1).endTime = 62 / 5 ∧
      ((reconcileSegs mMeasured 0 [mSeg1, mSeg2]).getD 1 mSeg1).startTime = 62 / 5 ∧
      ((reconcileSegs mMeasured 0 [mSeg1, mSeg2]).getD 1 mSeg1).endTime = 77 / 5 :=
  ⟨by decide,
    (C2_reconcile_shift_and_resize mMeasured [mSeg1, mSeg2] 1 mSeg1 (by decide)).2.1,
    by norm_num +decide [reconcileSegs, newDuration, segDelta, mMeasured, mSeg1, mSeg2, List.getD],
    by norm_num +decide [reconcileSegs, newDuration, segDelta, mMeasured, mSeg1, mSeg2, List.getD],
    by norm_num +decide [reconcileSegs, newDuration, segDelta, mMeasured, mSeg1, mSeg2, List.getD],
    by norm_num +decide [reconcileSegs, newDuration, segDelta, mMeasured, mSeg1, mSeg2, List.getD]⟩

/-- Kind of a reconciled-timeline entry (spec §3). -/
inductive EntryKind where
  | original
  | synthesized
deriving DecidableEq

/-- An entry of the `ReconciledTimeline` (spec §3): a source span of the
original media mapped to an output span. -/
structure TimelineEntry where
  kind : EntryKind
  srcStart : ℚ
  srcEnd : ℚ
  outStart : ℚ
  outEnd : ℚ
deriving DecidableEq

/-- The kind of the timeline entry produced for a segment: synthesized
when the segment was edited, original otherwise. -/
def entryKind (measured : String → Option ℚ) (s : TranscriptSegment) : EntryKind :=
  match measured s.id with
  | some _ => EntryKind.synthesized
  | none => EntryKind.original

/-- Modelled from the spec (§4.4): walk the segments in order keeping a
source-time cursor `src` and an output-time cursor `out`; emit an
original-kind entry for each nonempty gap (silence is preserved and
shifts with its neighbours), one entry per segment (its output span
sized by `newDuration`), and a trailing original-kind entry for the
remainder up to the media duration `D`. -/
def buildEntries (D : ℚ) (measured : String → Option ℚ) :
    ℚ → ℚ → List TranscriptSegment → List TimelineEntry
  | src, out, [] => if src < D then [⟨.original, src, D, out, out + (D - src)⟩] else []
  | src, out, s :: r =>
      if src < s.startTime then
        ⟨.original, src, s.startTime, out, out + (s.startTime - src)⟩ ::
          ⟨entryKind measured s, s.startTime, s.endTime, out + (s.startTime - src),
            out + (s.startTime - src) + newDuration measured s⟩ ::
          buildEntries D measured s.endTime
            (out + (s.startTime - src) + newDuration measured s) r
      else
        ⟨entryKind measured s, s.startTime, s.endTime, out, out + newDuration measured s⟩ ::
          buildEntries D measured s.endTime (out + newDuration measured s) r

/-- Modelled from the spec (§4.4): the reconciled timeline of a
transcript with media duration `D`, starting both cursors at 0. -/
def reconcileTimeline (D : ℚ) (measured : String → Option ℚ)
    (segs : List TranscriptSegment) : List TimelineEntry :=
  buildEntries D measured 0 0 segs

/-- Total output duration of a timeline: the sum of its entries' output
span lengths. -/
def timelineDuration : List TimelineEntry → ℚ
  | [] => 0
  | e :: r => (e.outEnd - e.outStart) + timelineDuration r

/-- Transcript validity from source cursor `src` (spec §3): segments are
sorted, non-overlapping, well formed, and end by the media duration `D`. -/
def validFromB (D : ℚ) : ℚ → List TranscriptSegment → Bool
  | src, [] => src ≤ D
  | src, s :: r => (src ≤ s.startTime) && (s.startTime ≤ s.endTime) && validFromB D s.endTime r

theorem validFromB_cons {D src : ℚ} {s : TranscriptSegment} {r : List TranscriptSegment} :
    validFromB D src (s :: r) = true ↔
      src ≤ s.startTime ∧ s.startTime ≤ s.endTime ∧ validFromB D s.endTime r = true := by
  simp [validFromB, Bool.and_eq_true, decide_eq_true_iff, and_assoc]

theorem buildEntries_duration (D : ℚ) (measured : String → Option ℚ) :
    ∀ (segs : List TranscriptSegment) (src out : ℚ), validFromB D src segs = true →
      timelineDuration (buildEntries D measured src out segs) =
        (D - src) + cumDelta measured segs := by
  intro segs
  induction segs with
  | nil =>
      intro src out h
      have hle : src ≤ D := by simpa [validFromB, decide_eq_true_iff] using h
      by_cases hlt : src < D
      · simp [buildEntries, if_pos hlt, timelineDuration, cumDelta]
      · have : src = D := le_antisymm hle (not_lt.mp hlt)
        simp [buildEntries, if_neg hlt, timelineDuration, cumDelta, this]
  | cons s r ih =>
      intro src out h
      rw [validFromB_cons] at h
      obtain ⟨h1, h2, h3⟩ := h
      by_cases hgap : src < s.startTime
      · rw [buildEntries, if_pos hgap]
        simp only [timelineDuration]
        rw [ih s.endTime _ h3]
        simp only [cumDelta, segDelta]
        ring
      · rw [buildEntries, if_neg hgap]
        have hse : src = s.startTime := le_antisymm h1 (not_lt.mp hgap)
        simp only [timelineDuration]
        rw [ih s.endTime _ h3]
        simp only [cumDelta, segDelta]
        rw [hse]
        ring

/-- Claim C5: for every valid transcript with media duration `D` and
every assignment of measured durations to edited segments, the
reconciled timeline's total output duration equals the original media
duration plus the sum over edited segments of (new duration − old
duration). -/
theorem C5_total_output_duration (D : ℚ) (measured : String → Option ℚ)
    (segs : List TranscriptSegment) (h : validFromB D 0 segs = true) :
    timelineDuration (reconcileTimeline D measured segs) = D + cumDelta measured segs := by
  have := buildEntries_duration D measured segs 0 0 h
  rw [reconcileTimeline, this]
  ring

theorem C5_witness :
    validFromB 20 0 [mSeg1, mSeg2] = true ∧
      timelineDuration (reconcileTimeline 20 mMeasured [mSeg1, mSeg2]) =
        20 + cumDelta mMeasured [mSeg1, mSeg2] :=
  ⟨by norm_num +decide [validFromB, mSeg1, mSeg2],
    C5_total_output_duration 20 mMeasured [mSeg1, mSeg2]
      (by norm_num +decide [validFromB, mSeg1, mSeg2])⟩

theorem buildEntries_invariants (D : ℚ) (measured : String → Option ℚ) :
    ∀ (segs : List TranscriptSegment) (src out : ℚ), validFromB D src segs = true →
      (buildEntries D measured src out segs).Chain' (fun a b => a.outEnd = b.outStart) ∧
      (∀ e ∈ (buildEntries D measured src out segs).head?,
        e.outStart = out ∧ src ≤ e.srcStart) ∧
      (buildEntries D measured src out segs).Chain'
        (fun a b => a.srcEnd ≤ b.srcStart) := by
  intro segs
  induction segs with
  | nil =>
      intro src out _
      by_cases hlt : src < D
      · rw [buildEntries, if_pos hlt]
        refine ⟨List.chain'_singleton _, ?_, List.chain'_singleton _⟩
        intro e he
        simp only [List.head?_cons, Option.mem_def, Option.some.injEq] at he
        rw [← he]
        exact ⟨rfl, le_rfl⟩
      · rw [buildEntries, if_neg hlt]
        exact ⟨List.chain'_nil, by simp, List.chain'_nil⟩
  | cons s r ih =>
      intro src out h
      rw [validFromB_cons] at h
      obtain ⟨h1, h2, h3⟩ := h
      obtain ⟨ihc, ihh, ihs⟩ := ih s.endTime (out + (s.startTime - src) + newDuration measured s) h3
      obtain ⟨ihc', ihh', ihs'⟩ := ih s.endTime (out + newDuration measured s) h3
      by_cases hgap : src < s.startTime
      · rw [buildEntries, if_pos hgap]
        refine ⟨?_, ?_, ?_⟩
        · rw [List.chain'_cons]
          refine ⟨rfl, ?_⟩
          rw [List.chain'_cons']
          exact ⟨fun y hy => ((ihh y hy).1).symm, ihc⟩
        · intro e he
          simp only [List.head?_cons, Option.mem_def, Option.some.injEq] at he
          rw [← he]
          exact ⟨rfl, le_rfl⟩
        · rw [List.chain'_cons]
          refine ⟨le_rfl, ?_⟩
          rw [List.chain'_cons']
          exact ⟨fun y hy => (ihh y hy).2, ihs⟩
      · rw [buildEntries, if_neg hgap]
        refine ⟨?_, ?_, ?_⟩
        · rw [List.chain'_cons']
          exact ⟨fun y hy => ((ihh' y hy).1).symm, ihc'⟩
        · intro e he
          simp only [List.head?_cons, Option.mem_def, Option.some.injEq] at he
          rw [← he]
          exact ⟨rfl, h1⟩
        · rw [List.chain'_cons']
          exact ⟨fun y hy => (ihh' y hy).2, ihs'⟩

/-- Claim C6: for every valid transcript, the reconciled timeline's
entries are contiguous (`entry[i].outputEnd = entry[i+1].outputStart`),
its first entry starts at output time 0, and the ordering of spoken
content is preserved: consecutive entries' source spans appear in
original-time order (no entry reorders segments). -/
theorem C6_timeline_invariants (D : ℚ) (measured : String → Option ℚ)
    (segs : List TranscriptSegment) (h : validFromB D 0 segs = true) :
    (reconcileTimeline D measured segs).Chain' (fun a b => a.outEnd = b.outStart) ∧
      (∀ e ∈ (reconcileTimeline D measured segs).head?, e.outStart = 0) ∧
      (reconcileTimeline D measured segs).Chain' (fun a b => a.srcEnd ≤ b.srcStart) := by
  obtain ⟨hc, hh, hs⟩ := buildEntries_invariants D measured segs 0 0 h
  exact ⟨hc, fun e he => (hh e he).1, hs⟩

theorem C6_witness :
    validFromB 20 0 [mSeg1, mSeg2] = true ∧
      (reconcileTimeline 20 mMeasured [mSeg1, mSeg2]).Chain'
          (fun a b => a.outEnd = b.outStart) ∧
        (∀ e ∈ (reconcileTimeline 20 mMeasured [mSeg1, mSeg2]).head?, e.outStart = 0) ∧
        (reconcileTimeline 20 mMeasured [mSeg1, mSeg2]).Chain'
          (fun a b => a.srcEnd ≤ b.srcStart) :=
  ⟨by norm_num +decide [validFromB, mSeg1, mSeg2],
    C6_timeline_invariants 20 mMeasured [mSeg1, mSeg2]
      (by norm_num +decide [validFromB, mSeg1, mSeg2])⟩

/-- The engine-visible project state: the media artifact bytes and the
transcript (spec §6).  On success both are replaced together; on failure
neither is touched. -/
structure EngineState where
  media : List Char
  transcript : List TranscriptSegment
deriving DecidableEq

/-- Top-level engine errors (spec §7 taxonomy, collapsed to the cases
the atomicity claim distinguishes). -/
inductive EngineError where
  | validation (err : ResolveError)
  | synthesisFailed
deriving DecidableEq

/-- Modelled from the spec (§5): run the synthesis calls of a resolved
plan; `synth` returns `none` on a terminal failure.  If any call fails
the whole batch fails and all intermediate audio is discarded. -/
def synthPlan (synth : String → List Char → Option (List Char)) :
    List (String × List Char) → Option (List (String × List Char))
  | [] => some []
  | (sid, txt) :: r =>
      match synth sid txt with
      | none => none
      | some audio =>
          match synthPlan synth r with
          | none => none
          | some rest => some ((sid, audio) :: rest)

/-- Modelled from the spec (§6): write back the transcript's new segment
text on success — each segment in the plan gets its resolved new text. -/
def applyPlan (segments : List TranscriptSegment)
    (plan : List (String × List Char)) : List TranscriptSegment :=
  segments.map (fun s =>
    match plan.lookup s.id with
    | some newText => { s with text := newText }
    | none => s)

/-- Modelled from the spec (§4.5, §4.6): stand-in for the spliced and
remuxed output artifact; its exact bytes are irrelevant to the atomicity
claim, which only requires that a fresh artifact is produced on success. -/
def renderOutput (media : List Char) (results : List (String × List Char)) : List Char :=
  results.foldl (fun acc r => acc ++ r.2) media

/-- Modelled from the spec (§5, §7): the fallible part of a batch run —
resolve the batch, then run all synthesis calls; any failure aborts the
whole batch before anything is written. -/
def engineRun (synth : String → List Char → Option (List Char))
    (segments : List TranscriptSegment) (edits : List TextEdit) :
    Except EngineError (List (String × List Char) × List (String × List Char)) :=
  match resolveEdits segments edits with
  | .error err => .error (.validation err)
  | .ok plan =>
      match synthPlan synth plan with
      | none => .error .synthesisFailed
      | some results => .ok (plan, results)

/-- Modelled from the spec (§5, §6, §7): the single exposed operation
`applyEditsToMedia`.  Validation failures and synthesis failures leave
the state untouched and return an error; success replaces media and
transcript together in one step (artifact swap, not in-place edit). -/
def applyEditsToMedia (synth : String → List Char → Option (List Char))
    (st : EngineState) (edits : List TextEdit) : EngineState × Except EngineError String :=
  match engineRun synth st.transcript edits with
  | .error err => (st, .error err)
  | .ok (plan, results) =>
      ({ media := renderOutput st.media results,
         transcript := applyPlan st.transcript plan }, .ok "new-artifact")

/-- The API response shape of the frontend (`ApiResponse` in the shared
types): `success` flag, optional `data`, optional error message. -/
structure ApiResponse (α : Type) where
  success : Bool
  data : Option α
  error : Option String

/-- `handleApplyChanges` of `TranscriptPanel.tsx`, as the transformation
it performs on the pending change list: it returns early when no project
is selected or no changes are pending; on `response.success &&
response.data` it clears the change list (`setChanges([])`); on any
other outcome (including a thrown error) the `catch` path leaves the
change list untouched. -/
def handleApplyChanges {α : Type} (selectedProjectId : Option String)
    (changes : List TextChange) (response : ApiResponse α) : List TextChange :=
  if selectedProjectId.isNone || changes.isEmpty then changes
  else if response.success && response.data.isSome then []
  else changes

/-- Claim C7: every failing application of an edit batch (validation
error or a partially failed synthesis batch) leaves the media and the
transcript untouched and produces no output artifact, while every
successful application replaces media and transcript together from the
resolved plan and its complete synthesis results; at the client,
`handleApplyChanges` retains the pending change list whenever the server
response is not a success carrying data, and clears it exactly when the
server reports success with data. -/
theorem C7_failure_leaves_state_untouched {α : Type}
    (synth : String → List Char → Option (List Char)) (st : EngineState)
    (edits : List TextEdit) (selectedProjectId : Option String)
    (changes : List TextChange) (response : ApiResponse α) :
    ((applyEditsToMedia synth st edits).2.isOk = false →
        (applyEditsToMedia synth st edits).1 = st) ∧
      ((applyEditsToMedia synth st edits).2.isOk = true →
        ∃ plan results, engineRun synth st.transcript edits = .ok (plan, results) ∧
          (applyEditsToMedia synth st edits).1 =
            { media := renderOutput st.media results,
              transcript := applyPlan st.transcript plan }) ∧
      (¬ (response.success = true ∧ response.data.isSome = true) →
        handleApplyChanges selectedProjectId changes response = changes) ∧
      (selectedProjectId.isSome = true → response.success = true →
        response.data.isSome = true →
        handleApplyChanges selectedProjectId changes response = []) := by
  refine ⟨?_, ?_, ?_, ?_⟩
  · intro hfail
    unfold applyEditsToMedia at hfail ⊢
    rcases hrun : engineRun synth st.transcript edits with err | ⟨plan, results⟩
    · rfl
    · simp only [hrun] at hfail
      simp [Except.isOk, Except.toBool] at hfail
  · intro hok
    unfold applyEditsToMedia at hok ⊢
    rcases hrun : engineRun synth st.transcript edits with err | ⟨plan, results⟩
    · exfalso
      simp only [hrun] at hok
      simp [Except.isOk, Except.toBool] at hok
    · exact ⟨plan, results, rfl, rfl⟩
  · intro hfail
    unfold handleApplyChanges
    by_cases hguard : selectedProjectId.isNone || changes.isEmpty
    · rw [if_pos hguard]
    · rw [if_neg hguard, if_neg (by
        rw [Bool.and_eq_true]
        exact hfail)]
  · intro hsome hsucc hdata
    unfold handleApplyChanges
    by_cases hguard : selectedProjectId.isNone || changes.isEmpty
    · rw [if_pos hguard]
      rcases Bool.or_eq_true _ _ |>.mp hguard with hnone | hempty
      · rw [Option.isNone_iff_eq_none.mp hnone] at hsome
        cases hsome
      · exact List.isEmpty_iff.mp hempty
    · rw [if_neg hguard, if_pos (by rw [Bool.and_eq_true]; exact ⟨hsucc, hdata⟩)]

def wEngineState : EngineState := ⟨"videobytes".toList, [wSegment]⟩

/-- An edit that resolves cleanly (its `oldText` matches the live text),
so the batch fails only at synthesis. -/
def goodEdit : TextEdit := ⟨"s1", "Mon".toList, "Fri".toList, 0, 3⟩

/-- A synthesis gateway whose every call fails terminally. -/
def failSynth : String → List Char → Option (List Char) := fun _ _ => none

def failResponse : ApiResponse String := ⟨false, none, some "Failed to apply changes."⟩

def okResponse : ApiResponse String := ⟨true, some "project", none⟩

theorem C7_witness :
    (applyEditsToMedia failSynth wEngineState [goodEdit]).2.isOk = false ∧
      (applyEditsToMedia failSynth wEngineState [goodEdit]).1 = wEngineState ∧
      handleApplyChanges (some "p1") [wChangeA] failResponse = [wChangeA] ∧
      handleApplyChanges (some "p1") [wChangeA] okResponse = [] :=
  ⟨by decide,
    (C7_failure_leaves_state_untouched failSynth wEngineState [goodEdit]
      (some "p1") [wChangeA] failResponse).1 (by decide),
    (C7_failure_leaves_state_untouched failSynth wEngineState [goodEdit]
      (some "p1") [wChangeA] failResponse).2.2.1 (by decide),
    (C7_failure_leaves_state_untouched failSynth wEngineState [goodEdit]
      (some "p1") [wChangeA] okResponse).2.2.2 (by decide) (by decide) (by decide)⟩
